import Mathlib

/-!
Verification of the qmexmut proxmox exclusive-guest tool.

The Go source is shallowly embedded: text is `List Char`, the three regular
expressions (`listPat`, `usbHostPat`, `keyValPat`) are interpreted by a small
backtracking engine with leftmost-first semantics matching Go's regexp
package, and the scanner chain (`cmdScanner` / `cmdMatcher` /
`cmdRecognizer`) is a deterministic state machine over the lines an external
command would produce.
-/

set_option linter.unusedVariables false
set_option linter.unnecessarySeqFocus false

namespace Qmexmut

/-- ASCII word character, as used by the regexp word-boundary assertion. -/
def isWordChar (c : Char) : Bool := c.isAlphanum || c == '_'

/-- Whitespace characters matched by the regexp whitespace class. -/
def isSpaceRE (c : Char) : Bool :=
  c == ' ' || c == '\t' || c == '\n' || c == '\x0c' || c == '\r'

/-- Any character, as matched by the regexp dot (anything but newline). -/
def isDotChar (c : Char) : Bool := c != '\n'

/-- Does the first list start the second one? -/
def startsW : List Char → List Char → Bool
  | [], _ => true
  | _ :: _, [] => false
  | p :: ps, c :: cs => p == c && startsW ps cs

/-- One piece of a regular expression: an assertion, a literal character, or
a repeated character class (greedy plus, lazy plus, greedy star). -/
inductive Atom where
  | boundary
  | lit (c : Char)
  | plusG (grp : Option Nat) (p : Char → Bool)
  | plusL (grp : Option Nat) (p : Char → Bool)
  | starG (p : Char → Bool)

/-- A compiled pattern: a sequence of atoms and its number of capture groups. -/
structure Pat where
  atoms : List Atom
  ngroups : Nat

/-- Candidate repetition lengths for a greedy plus: n, n-1, ..., 1. -/
def descLens (n : Nat) : List Nat := (List.range n).map (fun i => n - i)

/-- Candidate repetition lengths for a lazy plus: 1, 2, ..., n. -/
def ascLens (n : Nat) : List Nat := (List.range n).map (fun i => i + 1)

/-- Candidate repetition lengths for a greedy star: n, n-1, ..., 0. -/
def star0Lens (n : Nat) : List Nat := (List.range (n + 1)).map (fun i => n - i)

def isWordOpt : Option Char → Bool
  | none => false
  | some c => isWordChar c

/-- The character preceding the rest of the input after consuming `tk`. -/
def lastOr (prev : Option Char) (tk : List Char) : Option Char :=
  match tk.getLast? with
  | some c => some c
  | none => prev

def addCap (g : Option Nat) (tk : List Char) (caps : List (Nat × List Char)) :
    List (Nat × List Char) :=
  match g with
  | some n => (n, tk) :: caps
  | none => caps

/-- Try to match a sequence of atoms at the current position, given the
previous character (for word boundaries).  Returns the recorded captures and
the remaining input on success.  Greedy repetitions try the longest length
first, lazy ones the shortest, which yields leftmost-first semantics. -/
def tryAtoms : List Atom → Option Char → List Char →
    Option (List (Nat × List Char) × List Char)
  | [], _, cs => some ([], cs)
  | .boundary :: as, prev, cs =>
    let nw := match cs with
      | c :: _ => isWordChar c
      | [] => false
    if isWordOpt prev != nw then tryAtoms as prev cs else none
  | .lit c :: as, _, cs =>
    match cs with
    | c2 :: rest => if c2 == c then tryAtoms as (some c2) rest else none
    | [] => none
  | .plusG g p :: as, prev, cs =>
    (descLens (cs.takeWhile p).length).findSome? (fun k =>
      (tryAtoms as (lastOr prev (cs.take k)) (cs.drop k)).map (fun pr =>
        (addCap g (cs.take k) pr.1, pr.2)))
  | .plusL g p :: as, prev, cs =>
    (ascLens (cs.takeWhile p).length).findSome? (fun k =>
      (tryAtoms as (lastOr prev (cs.take k)) (cs.drop k)).map (fun pr =>
        (addCap g (cs.take k) pr.1, pr.2)))
  | .starG p :: as, prev, cs =>
    (star0Lens (cs.takeWhile p).length).findSome? (fun k =>
      (tryAtoms as (lastOr prev (cs.take k)) (cs.drop k)).map (fun pr =>
        (pr.1, pr.2)))

/-- Scan for the leftmost match of the atom sequence, threading the previous
character for word boundaries; on success return the Go `FindSubmatch` shape:
the matched text followed by each capture group (empty when absent). -/
def fsGo (atoms : List Atom) (ng : Nat) : Option Char → List Char →
    Option (List (List Char))
  | prev, cs =>
    match tryAtoms atoms prev cs with
    | some (caps, rest) =>
      some ((cs.take (cs.length - rest.length)) ::
        (List.range ng).map (fun i => ((caps.lookup (i + 1)).getD [])))
    | none =>
      match cs with
      | [] => none
      | c :: cs2 => fsGo atoms ng (some c) cs2

/-- Model of `pat.FindSubmatch(line)`. -/
def findSubmatch (pat : Pat) (line : List Char) : Option (List (List Char)) :=
  fsGo pat.atoms pat.ngroups none line

/-- The `qm list` row pattern from the source. -/
def listPat : Pat :=
  ⟨[.plusG (some 1) (fun c => !isSpaceRE c), .plusG none isSpaceRE,
    .plusL (some 2) isDotChar, .plusG none isSpaceRE,
    .plusL (some 3) isDotChar, .plusG none isSpaceRE], 3⟩

/-- The USB host binding pattern from the source. -/
def usbHostPat : Pat :=
  ⟨[.boundary, .lit 'h', .lit 'o', .lit 's', .lit 't', .lit '=',
    .plusG (some 1) (fun c => c != ',')], 1⟩

/-- The `key: value` configuration line pattern from the source. -/
def keyValPat : Pat :=
  ⟨[.plusL (some 1) isDotChar, .lit ':', .starG isSpaceRE,
    .plusG (some 2) isDotChar], 2⟩

/-- `MatchText` over a raw submatch list: the entry at `i`, or empty when out
of range (Go converts a nil slice to the empty string). -/
def mtext (ms : List (List Char)) (i : Nat) : List Char := (ms.get? i).getD []

/-- The label classification from `labelHostResource`, over the submatch list
of a `key: value` line (index 1 the key, index 2 the value). -/
def labelOfMsub (ms : List (List Char)) : List Char :=
  let name := mtext ms 1
  if startsW ("hostpci".data) name then
    ("hostpci:".data) ++ (mtext ms 2).takeWhile (fun c => c != ',')
  else if startsW ("usb".data) name then
    match findSubmatch usbHostPat (mtext ms 2) with
    | some m2 => ("hostusb:".data) ++ mtext m2 1
    | none => []
  else []

/-- The classification applied to an already-parsed key and value. -/
def classify (key value : String) : String :=
  ⟨labelOfMsub [[], key.data, value.data]⟩

/-- Modelled from the claim wording for the usb clause: the token of a
`host=<token>` fragment (token a nonempty run delimited by comma or end of
string) found anywhere in the value, leftmost occurrence first. -/
def specHostFragment : List Char → Option (List Char)
  | [] => none
  | c :: rest =>
    if startsW ("host=".data) (c :: rest)
        && (((c :: rest).drop 5).takeWhile (fun x => x != ',') != []) then
      some (((c :: rest).drop 5).takeWhile (fun x => x != ','))
    else specHostFragment rest

/-- The amended usb clause: the token of the leftmost `host=<token>` fragment
that begins at a word boundary, i.e. at the start of the value or right after
a character that is not a letter, digit or underscore. -/
def bndHostFragment : Option Char → List Char → Option (List Char)
  | _, [] => none
  | prev, c :: rest =>
    if !isWordOpt prev && startsW ("host=".data) (c :: rest)
        && (((c :: rest).drop 5).takeWhile (fun x => x != ',') != []) then
      some (((c :: rest).drop 5).takeWhile (fun x => x != ','))
    else bndHostFragment (some c) rest

/-- Modelled from the spec: the classification rule as amended, with the
usb fragment required to start at a word boundary. -/
def classifyAmended (key value : String) : String :=
  if startsW ("hostpci".data) key.data then
    ⟨("hostpci:".data) ++ value.data.takeWhile (fun c => c != ',')⟩
  else if startsW ("usb".data) key.data then
    match bndHostFragment none value.data with
    | some tok => ⟨("hostusb:".data) ++ tok⟩
    | none => ""
  else ""

/-! ### Characterizing the usb host pattern search -/

theorem take_len_takeWhile (p : Char → Bool) (cs : List Char) :
    cs.take (cs.takeWhile p).length = cs.takeWhile p := by
  induction cs with
  | nil => rfl
  | cons c rest ih =>
    by_cases h : p c <;> simp [List.takeWhile_cons, h, ih]

theorem drop_len_takeWhile (p : Char → Bool) (cs : List Char) :
    cs.drop (cs.takeWhile p).length = cs.dropWhile p := by
  induction cs with
  | nil => rfl
  | cons c rest ih =>
    by_cases h : p c <;> simp [List.takeWhile_cons, List.dropWhile_cons, h, ih]

theorem descLens_succ (n : Nat) : descLens (n + 1) = (n + 1) :: descLens n := by
  simp [descLens, List.range_succ_eq_map, List.map_map, Function.comp,
    Nat.succ_sub_succ]

/-- A trailing greedy plus takes the whole run of matching characters. -/
theorem tryAtoms_plusG_last (g : Option Nat) (p : Char → Bool)
    (prev : Option Char) (cs : List Char) :
    tryAtoms [.plusG g p] prev cs =
      if (cs.takeWhile p).length = 0 then none
      else some (addCap g (cs.takeWhile p) [], cs.dropWhile p) := by
  rcases h : (cs.takeWhile p).length with _ | m
  · simp [tryAtoms, h, descLens]
  · simp only [tryAtoms, h, descLens_succ, List.findSome?_cons]
    rw [← h, take_len_takeWhile, drop_len_takeWhile]
    simp [tryAtoms]
    rcases cs with _ | ⟨c, rest⟩
    · simp at h
    · refine ⟨by simp, ?_⟩
      by_cases hp : p c
      · simpa using hp
      · simp [List.takeWhile_cons, hp] at h

theorem tryAtoms_lit_step (c : Char) (as : List Atom) (prev : Option Char)
    (cs : List Char) :
    tryAtoms (.lit c :: as) prev cs =
      match cs with
      | [] => none
      | c2 :: rest => if c2 == c then tryAtoms as (some c2) rest else none := by
  cases cs <;> rfl

theorem tryAtoms_boundary_step (as : List Atom) (prev : Option Char)
    (cs : List Char) :
    tryAtoms (.boundary :: as) prev cs =
      if isWordOpt prev != (match cs with
          | c :: _ => isWordChar c
          | [] => false) then tryAtoms as prev cs else none := by
  cases cs <;> rfl

theorem startsW_host_shape (cs : List Char)
    (h : startsW ("host=".data) cs = true) :
    ∃ rest, cs = 'h' :: 'o' :: 's' :: 't' :: '=' :: rest := by
  have hl : ("host=".data) = ['h', 'o', 's', 't', '='] := rfl
  rw [hl] at h
  rcases cs with _ | ⟨a, _ | ⟨b, _ | ⟨c, _ | ⟨d, _ | ⟨e, rest⟩⟩⟩⟩⟩ <;>
    simp [startsW] at h
  obtain ⟨h1, h2, h3, h4, h5⟩ := h
  exact ⟨rest, by rw [← h1, ← h2, ← h3, ← h4, ← h5]⟩

theorem usb_tryAtoms (prev : Option Char) (cs : List Char) :
    tryAtoms usbHostPat.atoms prev cs =
      if !isWordOpt prev && startsW ("host=".data) cs
          && ((cs.drop 5).takeWhile (fun x => x != ',') != []) then
        some ([(1, (cs.drop 5).takeWhile (fun x => x != ','))],
          (cs.drop 5).dropWhile (fun x => x != ','))
      else none := by
  by_cases hs : startsW ("host=".data) cs = true
  · obtain ⟨rest, rfl⟩ := startsW_host_shape cs hs
    by_cases hw : isWordOpt prev = true
    · simp [usbHostPat, tryAtoms_boundary_step, isWordChar, hw]
    · have hw' : isWordOpt prev = false := by simp_all
      simp only [usbHostPat, tryAtoms_boundary_step, tryAtoms_lit_step, hw',
        tryAtoms_plusG_last, hs]
      simp [isWordChar, addCap]
      rcases rest with _ | ⟨r0, rr⟩
      · simp
      · by_cases hr : r0 = ',' <;> simp [hr]
  · have hs' : startsW ("host=".data) cs = false := by simp_all
    rw [show (!isWordOpt prev && startsW ("host=".data) cs
      && ((cs.drop 5).takeWhile (fun x => x != ',') != [])) = false by simp [hs']]
    simp only [Bool.false_eq_true, if_false]
    rcases cs with _ | ⟨a, _ | ⟨b, _ | ⟨c, _ | ⟨d, _ | ⟨e, rest⟩⟩⟩⟩⟩ <;>
      simp_all [usbHostPat, tryAtoms_boundary_step, tryAtoms_lit_step,
        tryAtoms, startsW] <;>
      (try (intros; simp_all))
/-- Scanning the value with the usb host pattern agrees with the word-boundary
fragment search. -/
theorem usb_fsGo (cs : List Char) (prev : Option Char) :
    (fsGo usbHostPat.atoms 1 prev cs).map (fun ms => mtext ms 1) =
      bndHostFragment prev cs := by
  induction cs generalizing prev with
  | nil =>
    rw [fsGo, usb_tryAtoms]
    simp [startsW, bndHostFragment]
  | cons c rest ih =>
    rw [fsGo, usb_tryAtoms]
    by_cases hc : (!isWordOpt prev && startsW ("host=".data) (c :: rest)
        && (((c :: rest).drop 5).takeWhile (fun x => x != ',') != [])) = true
    · rw [bndHostFragment, if_pos hc, if_pos hc]
      simp [mtext, List.lookup]
    · rw [bndHostFragment, if_neg hc, if_neg hc]
      simpa using ih (some c)

/-- C1, amended: the classification agrees with the spec rule once the usb
fragment search is required to start at a word boundary; the spec examples
hold as stated. -/
theorem C1_classify_amended :
    (∀ key value : String, classify key value = classifyAmended key value) ∧
    classify "hostpci0" "0000:01:00.0,pcie=1" = "hostpci:0000:01:00.0" ∧
    classify "usb0" "host=1-1.2" = "hostusb:1-1.2" ∧
    classify "usb0" "spice" = "" ∧
    classify "ide2" "local:iso/win.iso,media=cdrom" = "" := by
  refine ⟨?_, by decide, by decide, by decide, by decide⟩
  intro key value
  show (⟨labelOfMsub [[], key.data, value.data]⟩ : String) = _
  rw [labelOfMsub, classifyAmended]
  have h1 : mtext [[], key.data, value.data] 1 = key.data := rfl
  have h2 : mtext [[], key.data, value.data] 2 = value.data := rfl
  rw [h1, h2]
  by_cases hp : startsW ("hostpci".data) key.data = true
  · simp [hp]
  · rw [if_neg hp, if_neg hp]
    by_cases hu : startsW ("usb".data) key.data = true
    · rw [if_pos hu, if_pos hu]
      have := usb_fsGo value.data none
      rcases hb : bndHostFragment none value.data with _ | tok
      · rw [hb] at this
        have hfs : findSubmatch usbHostPat value.data = none := by
          rcases hx : fsGo usbHostPat.atoms 1 none value.data with _ | ms
          · exact hx
          · rw [hx] at this; simp at this
        rw [hfs]
      · rw [hb] at this
        rcases hx : fsGo usbHostPat.atoms 1 none value.data with _ | ms
        · rw [hx] at this; simp at this
        · have hx2 : findSubmatch usbHostPat value.data = some ms := hx
          rw [hx] at this
          simp at this
          rw [hx2]
          simp [this]
    · simp [hu]

/-- C1 is false as stated: the value of `usb0` below contains a
`host=<token>` fragment with token `1-2`, yet the classification returns the
empty string because the fragment does not start at a word boundary. -/
theorem C1_counterexample :
    specHostFragment ("vhost=1-2".data) = some ("1-2".data) ∧
    classify "usb0" "vhost=1-2" = "" := by
  constructor
  · decide
  · decide

/-! ### The scanner chain as a deterministic state machine

A `CmdScanner` models the Go `cmdScanner` bound to an external command in a
given environment: the fields `pipeRes`, `startRes`, `remaining`,
`pendingIo` and `waitRes` describe what the pipe creation, process start,
line reads and final reap would produce, while `processStarted`,
`scannerSome`, `ioHit`, `cur`, `err` and `killed` are the evolving state. -/

/-- Errors produced around an external command. -/
inductive GoError where
  | exitSignaled (sig : Nat)
  | exitStatus (code : Nat)
  | readErr (msg : List Char)
  | pipeFail (msg : List Char)
  | startFail (msg : List Char)
  | ioWrap (e : GoError)
  | cmdFail (args : List (List Char)) (e : GoError)
  | usage (prog : List Char)
  | unknownPhase (phase : List Char)
deriving DecidableEq, Repr

/-- `isKillError`: the error is an exit status reporting death by SIGKILL.
`errors.As` looks through wrapping; only exit errors carry a wait status. -/
def isKillError : GoError → Bool
  | .exitSignaled sig => sig == 9
  | .ioWrap e => isKillError e
  | .cmdFail _ e => isKillError e
  | _ => false

structure CmdScanner where
  args : List (List Char)
  cmdSome : Bool
  processStarted : Bool
  scannerSome : Bool
  err : Option GoError
  cur : List Char
  ioHit : Bool
  killed : Bool
  pipeRes : Option GoError
  startRes : Option GoError
  remaining : List (List Char)
  pendingIo : Option GoError
  waitRes : Option GoError
deriving DecidableEq, Repr

/-- `cmdScanner.Scan`: refuse on a recorded error or a nil command, lazily
create the output pipe and start the process on first use, then advance the
underlying line scanner, which surfaces its pending read error (once) after
the produced lines run out. -/
def CmdScanner.scan (csc : CmdScanner) : Bool × CmdScanner :=
  if csc.err.isSome then (false, csc)
  else if !csc.cmdSome then (false, csc)
  else
    let att : Except CmdScanner CmdScanner :=
      if !csc.processStarted then
        let att0 : Except CmdScanner CmdScanner :=
          if !csc.scannerSome then
            match csc.pipeRes with
            | some e => .error { csc with err := some e }
            | none => .ok { csc with scannerSome := true }
          else .ok csc
        match att0 with
        | .error s => .error s
        | .ok s =>
          match s.startRes with
          | some e => .error { s with err := some e }
          | none => .ok { s with err := none, processStarted := true }
      else .ok csc
    match att with
    | .error s => (false, s)
    | .ok s =>
      if !s.scannerSome then (false, s)
      else
        match s.remaining with
        | l :: rest => (true, { s with cur := l, remaining := rest })
        | [] =>
          match s.pendingIo with
          | some _ => (false, { s with ioHit := true })
          | none => (false, s)

/-- `cmdScanner.Err`: the recorded error, else the underlying line scanner's
surfaced read error, wrapped as an io error and recorded (first error wins). -/
def CmdScanner.errM (csc : CmdScanner) : Option GoError × CmdScanner :=
  match csc.err with
  | some e => (some e, csc)
  | none =>
    if csc.scannerSome && csc.ioHit then
      match csc.pendingIo with
      | some e => (some (GoError.ioWrap e), { csc with err := some (GoError.ioWrap e) })
      | none => (none, csc)
    else (none, csc)

/-- The state change of `cmdScanner.Cleanup`: if the process was started,
kill it, reap its exit status (ignoring an exit caused by that very kill),
and record the wait error only when no earlier error is pending. -/
def CmdScanner.cleanupState (csc : CmdScanner) : CmdScanner :=
  if csc.processStarted then
    let werr : Option GoError :=
      match csc.waitRes with
      | some w => if isKillError w then none else some w
      | none => none
    let pr := csc.errM
    let csc0 := { pr.2 with killed := true }
    match pr.1 with
    | none => { csc0 with err := werr }
    | some _ => csc0
  else csc

/-- `cmdScanner.Cleanup`: apply the state change above, then report the
pending error, if any, through the caller's error pointer when that pointer
is still empty, wrapped with the command's arguments. -/
def CmdScanner.cleanup (csc : CmdScanner) (errp : Option GoError) :
    CmdScanner × Option GoError :=
  let csc1 := csc.cleanupState
  let pr2 := csc1.errM
  match pr2.1, errp with
  | some e, none => (pr2.2, some (GoError.cmdFail pr2.2.args e))
  | _, _ => (pr2.2, errp)

/-- The operations a consumer can perform on a `cmdScanner`. -/
inductive ScanOp where
  | scan
  | errq
  | cleanup (errp : Option GoError)

def CmdScanner.applyOp (csc : CmdScanner) : ScanOp → CmdScanner
  | .scan => (csc.scan).2
  | .errq => (csc.errM).2
  | .cleanup errp => (csc.cleanup errp).1

def CmdScanner.applyOps (csc : CmdScanner) (ops : List ScanOp) : CmdScanner :=
  ops.foldl CmdScanner.applyOp csc

/-- The sticky error state a scanner can be driven into. -/
def stuckScanner : CmdScanner :=
  { args := ["qm".data, "config".data, "101".data], cmdSome := true,
    processStarted := true, scannerSome := true,
    err := some (GoError.readErr ("boom".data)), cur := [], ioHit := false,
    killed := false, pipeRes := none, startRes := none, remaining := ["x".data],
    pendingIo := some (GoError.readErr ("later".data)),
    waitRes := some (GoError.exitStatus 1) }

theorem errM_of_err (s : CmdScanner) (e : GoError) (he : s.err = some e) :
    s.errM = (some e, s) := by
  simp [CmdScanner.errM, he]

theorem errM_of_noerr_nohit (s : CmdScanner) (he : s.err = none)
    (hio : s.ioHit = false) : s.errM = (none, s) := by
  simp [CmdScanner.errM, he, hio]

theorem errM_of_hit (s : CmdScanner) (io : GoError) (he : s.err = none)
    (hsc : s.scannerSome = true) (hio : s.ioHit = true)
    (hpio : s.pendingIo = some io) :
    s.errM = (some (GoError.ioWrap io), { s with err := some (GoError.ioWrap io) }) := by
  simp [CmdScanner.errM, he, hsc, hio, hpio]

theorem applyOp_err_sticky (s : CmdScanner) (e : GoError) (h : s.err = some e) :
    ∀ op : ScanOp, (s.applyOp op).err = some e := by
  intro op
  cases op with
  | scan => simp [CmdScanner.applyOp, CmdScanner.scan, h]
  | errq =>
    have h2 : s.applyOp ScanOp.errq = (s.errM).2 := rfl
    rw [h2, errM_of_err s e h]
    exact h
  | cleanup errp =>
    have hcs : s.cleanupState.err = some e := by
      simp only [CmdScanner.cleanupState, errM_of_err s e h]
      by_cases hp : s.processStarted <;> simp [hp, h]
    simp only [CmdScanner.applyOp, CmdScanner.cleanup,
      errM_of_err s.cleanupState e hcs]
    rcases errp with _ | q <;> simp [hcs]

/-- C6: once an error is recorded, every later `Scan` returns false and leaves
the state untouched, `Err` keeps returning that same error, and no later read
error or cleanup-time exit error ever replaces it, across any sequence of
scanner operations. -/
theorem C6_sticky_first_error (s : CmdScanner) (e : GoError) (h : s.err = some e) :
    ∀ ops : List ScanOp,
      (s.applyOps ops).err = some e ∧
      (s.applyOps ops).scan = (false, s.applyOps ops) ∧
      (s.applyOps ops).errM = (some e, s.applyOps ops) := by
  have herr : ∀ ops : List ScanOp, ∀ t : CmdScanner, t.err = some e →
      (t.applyOps ops).err = some e := by
    intro ops
    induction ops with
    | nil => intro t ht; exact ht
    | cons op rest ih =>
      intro t ht
      exact ih (t.applyOp op) (applyOp_err_sticky t e ht op)
  intro ops
  refine ⟨herr ops s h, ?_, errM_of_err _ e (herr ops s h)⟩
  simp [CmdScanner.scan, herr ops s h]

theorem C6_sticky_first_error_witness :
    stuckScanner.err = some (GoError.readErr ("boom".data)) ∧
    (stuckScanner.applyOps [ScanOp.scan, ScanOp.errq, ScanOp.cleanup none]).err
      = some (GoError.readErr ("boom".data)) :=
  ⟨rfl, (C6_sticky_first_error stuckScanner (GoError.readErr ("boom".data)) rfl
    [ScanOp.scan, ScanOp.errq, ScanOp.cleanup none]).1⟩

theorem errM_killed (s : CmdScanner) : (s.errM).2.killed = s.killed := by
  rcases he : s.err with _ | e
  · simp only [CmdScanner.errM, he]
    by_cases hio : s.scannerSome && s.ioHit
    · rcases hpio : s.pendingIo with _ | io <;> simp [hio, hpio]
    · simp [eq_false_of_ne_true hio]
  · simp [CmdScanner.errM, he]

theorem cleanupState_killed (s : CmdScanner) (h : s.processStarted = true) :
    s.cleanupState.killed = true := by
  simp only [CmdScanner.cleanupState, h, if_true]
  rcases hpr : (s.errM).1 with _ | e <;> simp [hpr]

/-- C7: cleanup of a started process kills and reaps it; an exit caused by the
kill signal itself is suppressed; any other abnormal exit, or a read error
already surfaced by the line scanner, is reported once through the caller's
error pointer wrapped with the command's arguments, and only when that
pointer held no earlier error. -/
theorem C7_cleanup_spec (s : CmdScanner) (errp : Option GoError)
    (h : s.processStarted = true) :
    ((s.cleanup errp).1).killed = true ∧
    (∀ q, errp = some q → (s.cleanup errp).2 = some q) ∧
    (s.err = none → s.ioHit = false → errp = none →
      ((∀ w, s.waitRes = some w → isKillError w = true → (s.cleanup errp).2 = none) ∧
       (∀ w, s.waitRes = some w → isKillError w = false →
         (s.cleanup errp).2 = some (GoError.cmdFail s.args w)) ∧
       (s.waitRes = none → (s.cleanup errp).2 = none))) ∧
    (s.err = none → s.ioHit = true → s.scannerSome = true → errp = none →
      ∀ io, s.pendingIo = some io →
        (s.cleanup errp).2 = some (GoError.cmdFail s.args (GoError.ioWrap io))) := by
  refine ⟨?_, ?_, ?_, ?_⟩
  · have hk := cleanupState_killed s h
    simp only [CmdScanner.cleanup]
    rcases hpr : s.cleanupState.errM with ⟨e1, s1⟩
    have hs1 : s1.killed = true := by
      have := errM_killed s.cleanupState
      rw [hpr] at this
      simp at this
      rw [this, hk]
    rcases e1 with _ | e <;> rcases errp with _ | q <;> simp [hs1]
  · intro q hq
    subst hq
    simp only [CmdScanner.cleanup]
    rcases hpr : (s.cleanupState.errM).1 with _ | e <;> simp [hpr]
  · intro he hio hp
    subst hp
    have hcs : s.cleanupState =
        { s with
            killed := true,
            err := (match s.waitRes with
              | some w => if isKillError w then none else some w
              | none => none) } := by
      simp [CmdScanner.cleanupState, h, errM_of_noerr_nohit s he hio]
    refine ⟨?_, ?_, ?_⟩
    · intro w hw hk
      have : s.cleanupState = { s with killed := true, err := none } := by
        rw [hcs, hw]
        simp [hk]
      simp [CmdScanner.cleanup, this, errM_of_noerr_nohit, hio,
        CmdScanner.errM]
    · intro w hw hk
      have hcs2 : s.cleanupState = { s with killed := true, err := some w } := by
        rw [hcs, hw]
        simp [hk]
      simp [CmdScanner.cleanup, hcs2, CmdScanner.errM]
    · intro hw
      have hcs2 : s.cleanupState = { s with killed := true, err := none } := by
        rw [hcs, hw]
      simp [CmdScanner.cleanup, hcs2, CmdScanner.errM, hio]
  · intro he hio hsc hp io hpio
    subst hp
    have hcs : s.cleanupState =
        { s with killed := true, err := some (GoError.ioWrap io) } := by
      simp [CmdScanner.cleanupState, h, errM_of_hit s io he hsc hio hpio]
    simp [CmdScanner.cleanup, hcs, CmdScanner.errM]

/-- A started scanner whose process will report a non-kill abnormal exit. -/
def exitedScanner : CmdScanner :=
  { args := ["qm".data, "config".data, "102".data], cmdSome := true,
    processStarted := true, scannerSome := true, err := none, cur := [],
    ioHit := false, killed := false, pipeRes := none, startRes := none,
    remaining := [], pendingIo := none, waitRes := some (GoError.exitStatus 2) }

theorem C7_cleanup_spec_witness :
    exitedScanner.processStarted = true ∧
    ((exitedScanner.cleanup none).1).killed = true ∧
    (exitedScanner.cleanup none).2
      = some (GoError.cmdFail exitedScanner.args (GoError.exitStatus 2)) :=
  ⟨rfl, (C7_cleanup_spec exitedScanner none rfl).1,
    ((C7_cleanup_spec exitedScanner none rfl).2.2.1 rfl rfl rfl).2.1
      (GoError.exitStatus 2) rfl rfl⟩

/-! ### The matcher and recognizer layers, and the qmexmut pipeline -/

structure CmdMatcher where
  scanner : CmdScanner
  pat : Pat
  msub : List (List Char)

/-- `cmdMatcher.Match`: the submatch slice at `i`, nil out of range. -/
def CmdMatcher.Match (cmm : CmdMatcher) (i : Nat) : Option (List Char) :=
  cmm.msub.get? i

/-- `cmdMatcher.MatchText`: the submatch at `i` as text, empty out of range. -/
def CmdMatcher.MatchText (cmm : CmdMatcher) (i : Nat) : List Char :=
  mtext cmm.msub i

/-- The loop of `cmdMatcher.Scan`, with explicit fuel: keep advancing the
underlying scanner, recording the submatches of each line, until a line
matches the pattern or the scanner gives up. -/
def CmdMatcher.scanFuel : Nat → CmdMatcher → Bool × CmdMatcher
  | 0, cmm => (false, cmm)
  | n + 1, cmm =>
    match cmm.scanner.scan with
    | (true, s) =>
      match findSubmatch cmm.pat s.cur with
      | some ms => (true, { cmm with scanner := s, msub := ms })
      | none => CmdMatcher.scanFuel n { cmm with scanner := s }
    | (false, s) => (false, { cmm with scanner := s })

/-- `cmdMatcher.Scan`.  A successful underlying scan always consumes one of
the remaining lines, so `remaining.length + 1` fuel never runs out. -/
def CmdMatcher.Scan (cmm : CmdMatcher) : Bool × CmdMatcher :=
  CmdMatcher.scanFuel (cmm.scanner.remaining.length + 1) { cmm with msub := [] }

structure CmdRecognizer where
  matcher : CmdMatcher
  recf : CmdMatcher → List Char
  label : List Char

def CmdRecognizer.Label (cmr : CmdRecognizer) : List Char := cmr.label

/-- The loop of `cmdRecognizer.Scan`, with explicit fuel: keep advancing the
matcher until the recognition function yields a non-empty label. -/
def CmdRecognizer.scanFuel : Nat → CmdRecognizer → Bool × CmdRecognizer
  | 0, cmr => (false, cmr)
  | n + 1, cmr =>
    match cmr.matcher.Scan with
    | (true, m) =>
      if cmr.recf m != [] then (true, { cmr with matcher := m, label := cmr.recf m })
      else CmdRecognizer.scanFuel n { cmr with matcher := m }
    | (false, m) => (false, { cmr with matcher := m })

/-- `cmdRecognizer.Scan`. -/
def CmdRecognizer.Scan (cmr : CmdRecognizer) : Bool × CmdRecognizer :=
  CmdRecognizer.scanFuel (cmr.matcher.scanner.remaining.length + 1)
    { cmr with label := [] }

/-- `matchCommand`. -/
def matchCommand (cmd : CmdScanner) (pat : Pat) : CmdMatcher := ⟨cmd, pat, []⟩

/-- `recognizeCommand`. -/
def recognizeCommand (cmd : CmdScanner) (pat : Pat)
    (recf : CmdMatcher → List Char) : CmdRecognizer := ⟨⟨cmd, pat, []⟩, recf, []⟩

/-- `labelHostResource` over a matcher positioned on a `key: value` line. -/
def labelHostResource (cmm : CmdMatcher) : List Char :=
  let name := cmm.MatchText 1
  if startsW ("hostpci".data) name then
    ("hostpci:".data) ++ (cmm.MatchText 2).takeWhile (fun c => c != ',')
  else if startsW ("usb".data) name then
    match findSubmatch usbHostPat ((cmm.Match 2).getD []) with
    | some m2 => ("hostusb:".data) ++ mtext m2 1
    | none => []
  else []

theorem labelHostResource_eq (cmm : CmdMatcher) :
    labelHostResource cmm = labelOfMsub cmm.msub := rfl

/-- `exec.Command` in an environment where the pipe, the start, the reads
and the final wait of the command all succeed and its output is `out`. -/
def mkCmd (args : List (List Char)) (out : List (List Char)) : CmdScanner :=
  { args := args, cmdSome := true, processStarted := false,
    scannerSome := false, err := none, cur := [], ioHit := false,
    killed := false, pipeRes := none, startRes := none, remaining := out,
    pendingIo := none, waitRes := none }

/-- The live hypervisor state the pipeline queries: the `qm list` output and
each VM's `qm config` output. -/
structure World where
  listOut : List (List Char)
  configOut : List Char → List (List Char)

structure ListRec where
  id : List Char
  name : List Char
  status : List Char
deriving DecidableEq, Repr

/-- The accumulation loop of `hostResources`: drain the recognizer, adding
every produced label to the set. -/
def hostResLoop : Nat → CmdRecognizer → List (List Char) →
    List (List Char) × CmdRecognizer
  | 0, cmr, acc => (acc, cmr)
  | n + 1, cmr, acc =>
    match cmr.Scan with
    | (true, r2) =>
      hostResLoop n r2 (if r2.label ∈ acc then acc else acc ++ [r2.label])
    | (false, r2) => (acc, r2)

/-- `hostResources`: run the VM's configuration dump through the recognizer,
collect every label, then clean up the scan session (reporting its error, if
any, through the deferred error pointer). -/
def hostResources (w : World) (id : List Char) :
    Except GoError (List (List Char)) :=
  let cmr := recognizeCommand
    (mkCmd ["qm".data, "config".data, id] (w.configOut id))
    keyValPat labelHostResource
  let pr := hostResLoop (cmr.matcher.scanner.remaining.length + 1) cmr []
  let cl := pr.2.matcher.scanner.cleanup none
  match cl.2 with
  | some e => .error e
  | none => .ok pr.1

/-- The loop of `sharesHostResources`: scan labels until one is in the set. -/
def sharesLoop : Nat → CmdRecognizer → List (List Char) →
    Bool × CmdRecognizer
  | 0, cmr, _ => (false, cmr)
  | n + 1, cmr, reses =>
    match cmr.Scan with
    | (true, r2) =>
      if r2.label ∈ reses then (true, r2) else sharesLoop n r2 reses
    | (false, r2) => (false, r2)

/-- `sharesHostResources`: true as soon as one of the VM's labels is in the
given set, stopping early; the scan session is cleaned up either way and its
error, if any, is reported through the deferred error pointer. -/
def sharesHostResources (w : World) (id : List Char)
    (reses : List (List Char)) : Bool × Option GoError :=
  let cmr := recognizeCommand
    (mkCmd ["qm".data, "config".data, id] (w.configOut id))
    keyValPat labelHostResource
  let pr := sharesLoop (cmr.matcher.scanner.remaining.length + 1) cmr reses
  let cl := pr.2.matcher.scanner.cleanup none
  (pr.1, cl.2)

/-- The loop of `mutuals` over the `qm list` rows: skip the target's own id,
test every other listed VM for shared host resources, and collect id, name
and status of the sharing ones in listing order. -/
def mutLoop (w : World) (id : List Char) (res : List (List Char)) :
    Nat → CmdMatcher → List ListRec → Except GoError (List ListRec)
  | 0, _, acc => .ok acc
  | n + 1, cmm, acc =>
    match cmm.Scan with
    | (false, cmm2) =>
      match (cmm2.scanner.errM).1 with
      | some e => .error e
      | none => .ok acc
    | (true, cmm2) =>
      let otherId := cmm2.MatchText 1
      if otherId = id then mutLoop w id res n cmm2 acc
      else
        let pr := sharesHostResources w otherId res
        match pr.2 with
        | some e => .error e
        | none =>
          if pr.1 then
            mutLoop w id res n cmm2
              (acc ++ [⟨otherId, cmm2.MatchText 2, cmm2.MatchText 3⟩])
          else mutLoop w id res n cmm2 acc

/-- `mutuals`: build the target's resource set, then walk the `qm list`
output (first matching line discarded as the header). -/
def mutuals (w : World) (id : List Char) : Except GoError (List ListRec) :=
  match hostResources w id with
  | .error e => .error e
  | .ok res =>
    let cmm := matchCommand (mkCmd ["qm".data, "list".data] w.listOut) listPat
    let pr := cmm.Scan
    mutLoop w id res (pr.2.scanner.remaining.length + 1) pr.2 []

/-- `maybeRun`: under dry run, only report; otherwise issue the external
request, whose outcome the environment determines. -/
def maybeRun (dry : Bool) (outcome : List (List Char) → Option GoError)
    (args : List (List Char)) : List (List (List Char)) × Option GoError :=
  if dry then ([], none) else ([args], outcome args)

/-- The task-spawning pass of `stopMutuals` over the mutual records: running
VMs spawn a shutdown task, stopped ones are skipped, anything else is
diagnosed (non-fatally) as being in an unknown state. -/
def spawnLoop : List ListRec → List (List Char) × List ListRec
  | [] => ([], [])
  | r :: rest =>
    let pr := spawnLoop rest
    if r.status = "running".data then (r.id :: pr.1, pr.2)
    else if r.status = "stopped".data then pr
    else (pr.1, r :: pr.2)

def shutdownArgs (id : List Char) : List (List Char) :=
  ["qm".data, "shutdown".data, id]

/-- The concurrent execution of the spawned shutdown tasks, resolved against
a completion order: each task independently issues its request (none under
dry run), and the error group keeps the error of the first task to fail in
completion order, discarding the rest. -/
def stopTasksExec (dry : Bool) (outcome : List (List Char) → Option GoError)
    (order : List (List Char)) :
    List (List (List Char)) × Option GoError :=
  let results := order.map (fun id => maybeRun dry outcome (shutdownArgs id))
  (results.foldr (fun pr acc => pr.1 ++ acc) [],
    results.findSome? (fun pr => pr.2))

/-- The fan-out of `stopMutuals` over a list of mutual records: spawn tasks,
run them concurrently under the scheduler's completion order, and return the
issued requests, the diagnosed unknown-state records, and the retained first
error. -/
def stopMutualsOnRecs (recs : List ListRec) (dry : Bool)
    (outcome : List (List Char) → Option GoError)
    (sched : List (List Char) → List (List Char)) :
    List (List (List Char)) × List ListRec × Option GoError :=
  let sp := spawnLoop recs
  let ex := stopTasksExec dry outcome (sched sp.1)
  (ex.1, sp.2, ex.2)

/-- `stopMutuals`: find the mutual VMs and shut down the running ones. -/
def stopMutuals (w : World) (dry : Bool)
    (outcome : List (List Char) → Option GoError)
    (sched : List (List Char) → List (List Char)) (vmid : List Char) :
    List (List (List Char)) × List ListRec × Option GoError :=
  match mutuals w vmid with
  | .error e => ([], [], some e)
  | .ok recs => stopMutualsOnRecs recs dry outcome sched

/-- `runHook`: require a vmid and a phase, dispatch on the phase.  Returns
the error, the issued external requests and the diagnosed records. -/
def runHook (w : World) (dry : Bool)
    (outcome : List (List Char) → Option GoError)
    (sched : List (List Char) → List (List Char)) (progName : List Char)
    (args : List (List Char)) :
    Option GoError × List (List (List Char)) × List ListRec :=
  if args.length < 2 then (some (GoError.usage progName), [], [])
  else
    match args with
    | vmid :: phase :: _ =>
      if phase = "pre-start".data then
        let pr := stopMutuals w dry outcome sched vmid
        (pr.2.2, pr.1, pr.2.1)
      else if phase = "post-start".data then (none, [], [])
      else if phase = "pre-stop".data then (none, [], [])
      else if phase = "post-stop".data then (none, [], [])
      else (some (GoError.unknownPhase phase), [], [])
    | _ => (some (GoError.usage progName), [], [])

/-! ### Characterization of the scanner chain on error-free sessions -/

/-- A scanner state in an environment where everything about the command
succeeds, before or after the lazy start. -/
def CleanAt (s : CmdScanner) : Prop :=
  s.err = none ∧ s.pipeRes = none ∧ s.startRes = none ∧ s.pendingIo = none ∧
  s.ioHit = false ∧ s.waitRes = none ∧ s.cmdSome = true ∧
  s.scannerSome = s.processStarted

/-- The state after the lazy start. -/
def asStarted (s : CmdScanner) : CmdScanner :=
  { s with processStarted := true, scannerSome := true }

/-- The state after the lazy start and consuming one line. -/
def advSt (s : CmdScanner) (l : List Char) (rest : List (List Char)) :
    CmdScanner :=
  { s with
      processStarted := true,
      scannerSome := true,
      cur := l,
      remaining := rest }

/-- The state after consuming every remaining line. -/
def drained (s : CmdScanner) : CmdScanner :=
  { s with
      processStarted := true,
      scannerSome := true,
      cur := s.remaining.getLastD s.cur,
      remaining := [] }

theorem cleanAt_mkCmd (args : List (List Char)) (out : List (List Char)) :
    CleanAt (mkCmd args out) := by
  refine ⟨rfl, rfl, rfl, rfl, rfl, rfl, rfl, rfl⟩

theorem cleanAt_advSt (s : CmdScanner) (l : List Char)
    (rest : List (List Char)) (h : CleanAt s) : CleanAt (advSt s l rest) := by
  obtain ⟨h1, h2, h3, h4, h5, h6, h7, h8⟩ := h
  exact ⟨h1, h2, h3, h4, h5, h6, h7, rfl⟩

theorem cleanAt_drained (s : CmdScanner) (h : CleanAt s) :
    CleanAt (drained s) := by
  obtain ⟨h1, h2, h3, h4, h5, h6, h7, h8⟩ := h
  exact ⟨h1, h2, h3, h4, h5, h6, h7, rfl⟩

/-- On a clean session, `Scan` starts the command if needed, then yields the
next line, or reports exhaustion. -/
theorem scan_clean (s : CmdScanner) (h : CleanAt s) :
    s.scan = (match s.remaining with
      | [] => (false, asStarted s)
      | l :: rest => (true, advSt s l rest)) := by
  obtain ⟨h1, h2, h3, h4, h5, h6, h7, h8⟩ := h
  cases s with
  | mk args cmdSome processStarted scannerSome err cur ioHit killed pipeRes
      startRes remaining pendingIo waitRes =>
    simp only at h1 h2 h3 h4 h5 h6 h7 h8
    subst h1 h2 h3 h4 h5 h6 h7 h8
    cases scannerSome <;> rcases remaining with _ | ⟨l, rest⟩ <;>
      simp [CmdScanner.scan, asStarted, advSt]

/-- The first line matching the pattern, its submatches, and the lines after
it. -/
def firstMatch (pat : Pat) : List (List Char) →
    Option (List (List Char) × List Char × List (List Char))
  | [] => none
  | l :: rest =>
    match findSubmatch pat l with
    | some ms => some (ms, l, rest)
    | none => firstMatch pat rest

theorem advSt_cur (s : CmdScanner) (l : List Char) (rest : List (List Char)) :
    (advSt s l rest).cur = l := rfl

theorem advSt_remaining (s : CmdScanner) (l : List Char)
    (rest : List (List Char)) : (advSt s l rest).remaining = rest := rfl

theorem advSt_advSt (s : CmdScanner) (l : List Char) (rest : List (List Char))
    (l2 : List Char) (rest2 : List (List Char)) :
    advSt (advSt s l rest) l2 rest2 = advSt s l2 rest2 := by
  simp [advSt]

theorem drained_advSt (s : CmdScanner) (l : List Char)
    (rest : List (List Char)) (hr : s.remaining = l :: rest) :
    drained (advSt s l rest) = drained s := by
  simp only [drained, advSt, hr, List.getLastD_cons]

/-- On a clean session, the matcher loop stops at the first line matching its
pattern, or drains the output. -/
theorem matcher_scanFuel_clean (n : Nat) :
    ∀ (s : CmdScanner) (pat : Pat) (m0 : List (List Char)), CleanAt s →
    s.remaining.length < n →
    CmdMatcher.scanFuel n ⟨s, pat, m0⟩ =
      (match firstMatch pat s.remaining with
        | some (ms, l, rest) => (true, ⟨advSt s l rest, pat, ms⟩)
        | none => (false, ⟨drained s, pat, m0⟩)) := by
  induction n with
  | zero => intro s pat m0 hc hn; omega
  | succ n ih =>
    intro s pat m0 hc hn
    rcases hr : s.remaining with _ | ⟨l, rest⟩
    · simp only [CmdMatcher.scanFuel, scan_clean s hc, hr, firstMatch]
      have : drained s = asStarted s := by simp [drained, asStarted, hr]
      rw [this]
    · simp only [CmdMatcher.scanFuel, scan_clean s hc, hr, firstMatch]
      rcases hf : findSubmatch pat l with _ | ms
      · have hrest : rest.length < n := by
          rw [hr] at hn
          simp only [List.length_cons] at hn
          omega
        simp only [advSt_cur, hf]
        rw [ih (advSt s l rest) pat m0 (cleanAt_advSt s l rest hc)
          (by simp only [advSt_remaining]; exact hrest)]
        simp only [advSt_remaining, advSt_advSt, drained_advSt s l rest hr]
      · simp only [advSt_cur, hf]

/-- On a clean session, `cmdMatcher.Scan` finds the first matching line. -/
theorem matcher_scan_clean (s : CmdScanner) (pat : Pat) (m0 : List (List Char))
    (hc : CleanAt s) :
    CmdMatcher.Scan ⟨s, pat, m0⟩ =
      (match firstMatch pat s.remaining with
        | some (ms, l, rest) => (true, ⟨advSt s l rest, pat, ms⟩)
        | none => (false, ⟨drained s, pat, []⟩)) := by
  have h := matcher_scanFuel_clean (s.remaining.length + 1) s pat [] hc
    (Nat.lt_succ_self _)
  exact h

/-- The first line whose submatches classify to a non-empty label: the
submatches, the line, the label, and the lines after it. -/
def firstLabel (pat : Pat) (lf : List (List Char) → List Char) :
    List (List Char) →
    Option (List (List Char) × List Char × List Char × List (List Char))
  | [] => none
  | l :: rest =>
    match findSubmatch pat l with
    | none => firstLabel pat lf rest
    | some ms =>
      if lf ms = [] then firstLabel pat lf rest
      else some (ms, l, lf ms, rest)

theorem firstLabel_of_firstMatch_none (pat : Pat)
    (lf : List (List Char) → List Char) (lines : List (List Char))
    (h : firstMatch pat lines = none) : firstLabel pat lf lines = none := by
  induction lines with
  | nil => rfl
  | cons l rest ih =>
    rw [firstMatch] at h
    rw [firstLabel]
    rcases hf : findSubmatch pat l with _ | ms
    · rw [hf] at h
      exact ih h
    · rw [hf] at h
      simp at h

theorem firstLabel_of_firstMatch_some (pat : Pat)
    (lf : List (List Char) → List Char) (lines : List (List Char))
    (ms : List (List Char)) (l : List Char) (rest : List (List Char))
    (h : firstMatch pat lines = some (ms, l, rest)) :
    firstLabel pat lf lines =
      (if lf ms = [] then firstLabel pat lf rest
       else some (ms, l, lf ms, rest)) := by
  induction lines with
  | nil => simp [firstMatch] at h
  | cons l0 rest0 ih =>
    rw [firstMatch] at h
    rw [firstLabel]
    rcases hf : findSubmatch pat l0 with _ | ms0
    · rw [hf] at h
      exact ih h
    · rw [hf] at h
      simp at h
      obtain ⟨hm, hl, hr⟩ := h
      subst hm hl hr
      rfl

theorem firstMatch_shorter (pat : Pat) (lines : List (List Char)) :
    ∀ (ms : List (List Char)) (l : List Char) (rest : List (List Char)),
    firstMatch pat lines = some (ms, l, rest) → rest.length < lines.length := by
  induction lines with
  | nil => intro ms l rest h; simp [firstMatch] at h
  | cons l0 rest0 ih =>
    intro ms l rest h
    rw [firstMatch] at h
    rcases hf : findSubmatch pat l0 with _ | ms0
    · rw [hf] at h
      have := ih ms l rest h
      simp only [List.length_cons]
      omega
    · rw [hf] at h
      simp at h
      obtain ⟨_, _, hr⟩ := h
      subst hr
      simp

theorem firstMatch_getLastD (pat : Pat) (lines : List (List Char)) :
    ∀ (ms : List (List Char)) (l : List Char) (rest : List (List Char)),
    firstMatch pat lines = some (ms, l, rest) →
    ∀ d, lines.getLastD d = rest.getLastD l := by
  induction lines with
  | nil => intro ms l rest h; simp [firstMatch] at h
  | cons l0 rest0 ih =>
    intro ms l rest h d
    rw [firstMatch] at h
    rcases hf : findSubmatch pat l0 with _ | ms0
    · rw [hf] at h
      rw [List.getLastD_cons, ih ms l rest h l0]
    · rw [hf] at h
      simp at h
      obtain ⟨_, hl, hr⟩ := h
      subst hl hr
      rw [List.getLastD_cons]

theorem drained_advSt_of_match (pat : Pat) (s : CmdScanner)
    (ms : List (List Char)) (l : List Char) (rest : List (List Char))
    (hfm : firstMatch pat s.remaining = some (ms, l, rest)) :
    drained (advSt s l rest) = drained s := by
  simp only [drained, advSt, advSt_remaining, advSt_cur]
  rw [firstMatch_getLastD pat s.remaining ms l rest hfm s.cur]

/-- On a clean session, the recognizer loop stops at the first line that
classifies to a non-empty label, or drains the output. -/
theorem rec_scanFuel_clean (n : Nat) :
    ∀ (s : CmdScanner) (pat : Pat) (m0 : List (List Char)) (lab0 : List Char),
    CleanAt s → s.remaining.length < n →
    CmdRecognizer.scanFuel n ⟨⟨s, pat, m0⟩, labelHostResource, lab0⟩ =
      (match firstLabel pat labelOfMsub s.remaining with
        | some (ms, l, lab, rest) =>
          (true, ⟨⟨advSt s l rest, pat, ms⟩, labelHostResource, lab⟩)
        | none => (false, ⟨⟨drained s, pat, []⟩, labelHostResource, lab0⟩)) := by
  induction n with
  | zero => intro s pat m0 lab0 hc hn; omega
  | succ n ih =>
    intro s pat m0 lab0 hc hn
    rw [CmdRecognizer.scanFuel, matcher_scan_clean s pat m0 hc]
    rcases hfm : firstMatch pat s.remaining with _ | ⟨ms, l, rest⟩
    · rw [firstLabel_of_firstMatch_none pat labelOfMsub s.remaining hfm]
    · rw [firstLabel_of_firstMatch_some pat labelOfMsub s.remaining ms l rest hfm]
      dsimp only
      have hlab : labelHostResource ⟨advSt s l rest, pat, ms⟩ = labelOfMsub ms :=
        labelHostResource_eq _
      by_cases hz : labelOfMsub ms = []
      · rw [if_pos hz]
        simp only [hlab, hz, bne_self_eq_false]
        rw [if_neg Bool.false_ne_true]
        have hlen : rest.length < n := by
          have := firstMatch_shorter pat s.remaining ms l rest hfm
          omega
        rw [ih (advSt s l rest) pat ms lab0 (cleanAt_advSt s l rest hc)
          (by simp only [advSt_remaining]; exact hlen)]
        simp only [advSt_remaining, advSt_advSt,
          drained_advSt_of_match pat s ms l rest hfm]
      · rw [if_neg hz]
        have hbt : (labelHostResource
            (⟨advSt s l rest, pat, ms⟩ : CmdMatcher) != []) = true := by
          rw [hlab]
          simp [hz]
        rw [hbt, if_pos rfl, hlab]

/-- On a clean session, `cmdRecognizer.Scan` finds the first labelled line. -/
theorem rec_scan_clean (s : CmdScanner) (pat : Pat) (m0 : List (List Char))
    (lab0 : List Char) (hc : CleanAt s) :
    CmdRecognizer.Scan ⟨⟨s, pat, m0⟩, labelHostResource, lab0⟩ =
      (match firstLabel pat labelOfMsub s.remaining with
        | some (ms, l, lab, rest) =>
          (true, ⟨⟨advSt s l rest, pat, ms⟩, labelHostResource, lab⟩)
        | none => (false, ⟨⟨drained s, pat, []⟩, labelHostResource, []⟩)) :=
  rec_scanFuel_clean (s.remaining.length + 1) s pat m0 [] hc
    (Nat.lt_succ_self _)

/-- The labels a configuration dump yields, line by line: the classification
of every line matching the key-value pattern, empty classifications skipped. -/
def labelsOf (lines : List (List Char)) : List (List Char) :=
  lines.filterMap (fun l =>
    match findSubmatch keyValPat l with
    | some ms => if labelOfMsub ms = [] then none else some (labelOfMsub ms)
    | none => none)

theorem labelsOf_of_firstLabel_none (lines : List (List Char))
    (h : firstLabel keyValPat labelOfMsub lines = none) : labelsOf lines = [] := by
  induction lines with
  | nil => rfl
  | cons l rest ih =>
    rw [firstLabel] at h
    rw [labelsOf, List.filterMap_cons]
    rcases hf : findSubmatch keyValPat l with _ | ms
    · simp only [hf] at h ⊢
      exact ih h
    · simp only [hf] at h ⊢
      by_cases hz : labelOfMsub ms = []
      · simp only [hz, if_pos rfl] at h ⊢
        exact ih h
      · rw [if_neg hz] at h
        simp at h

theorem labelsOf_of_firstLabel_some (lines : List (List Char))
    (ms : List (List Char)) (l lab : List Char) (rest : List (List Char))
    (h : firstLabel keyValPat labelOfMsub lines = some (ms, l, lab, rest)) :
    labelsOf lines = lab :: labelsOf rest := by
  induction lines with
  | nil => simp [firstLabel] at h
  | cons l0 rest0 ih =>
    rw [firstLabel] at h
    rw [labelsOf, List.filterMap_cons]
    rcases hf : findSubmatch keyValPat l0 with _ | ms0
    · simp only [hf] at h ⊢
      exact ih h
    · simp only [hf] at h ⊢
      by_cases hz : labelOfMsub ms0 = []
      · simp only [hz, if_pos rfl] at h ⊢
        exact ih h
      · rw [if_neg hz] at h
        simp only [Option.some.injEq, Prod.mk.injEq] at h
        obtain ⟨hm, hl, hlab, hr⟩ := h
        subst hlab hr
        simp only [if_neg hz]
        rfl

theorem firstLabel_shorter (pat : Pat) (lf : List (List Char) → List Char)
    (lines : List (List Char)) :
    ∀ (ms : List (List Char)) (l lab : List Char) (rest : List (List Char)),
    firstLabel pat lf lines = some (ms, l, lab, rest) →
    rest.length < lines.length := by
  induction lines with
  | nil => intro ms l lab rest h; simp [firstLabel] at h
  | cons l0 rest0 ih =>
    intro ms l lab rest h
    rw [firstLabel] at h
    rcases hf : findSubmatch pat l0 with _ | ms0
    · rw [hf] at h
      have := ih ms l lab rest h
      simp only [List.length_cons]
      omega
    · rw [hf] at h
      dsimp only at h
      by_cases hz : lf ms0 = []
      · rw [if_pos hz] at h
        have := ih ms l lab rest h
        simp only [List.length_cons]
        omega
      · rw [if_neg hz] at h
        simp only [Option.some.injEq, Prod.mk.injEq] at h
        obtain ⟨_, _, _, hr⟩ := h
        subst hr
        simp

/-- Folding the set insertion of `hostResources` over a label list. -/
def dedupAcc (acc : List (List Char)) (labs : List (List Char)) :
    List (List Char) :=
  labs.foldl (fun a l => if l ∈ a then a else a ++ [l]) acc

theorem dedupAcc_cons (acc : List (List Char)) (x : List Char)
    (labs : List (List Char)) :
    dedupAcc acc (x :: labs) =
      dedupAcc (if x ∈ acc then acc else acc ++ [x]) labs := rfl

theorem mem_dedupAcc (x : List Char) (labs : List (List Char)) :
    ∀ acc, x ∈ dedupAcc acc labs ↔ x ∈ acc ∨ x ∈ labs := by
  induction labs with
  | nil => intro acc; simp [dedupAcc]
  | cons l rest ih =>
    intro acc
    rw [dedupAcc, List.foldl_cons]
    have h2 := ih (if l ∈ acc then acc else acc ++ [l])
    rw [dedupAcc] at h2
    rw [h2]
    by_cases hl : l ∈ acc
    · simp only [if_pos hl, List.mem_cons]
      constructor
      · rintro (h | h)
        · exact Or.inl h
        · exact Or.inr (Or.inr h)
      · rintro (h | h | h)
        · exact Or.inl h
        · rw [h]; exact Or.inl hl
        · exact Or.inr h
    · simp only [if_neg hl, List.mem_append, List.mem_singleton, List.mem_cons]
      tauto

/-- On a clean session, the drain loop of `hostResources` accumulates exactly
the labels of the remaining lines. -/
theorem hostResLoop_clean (n : Nat) :
    ∀ (s : CmdScanner) (m0 : List (List Char)) (lab0 : List Char)
      (acc : List (List Char)), CleanAt s → s.remaining.length < n →
    (hostResLoop n ⟨⟨s, keyValPat, m0⟩, labelHostResource, lab0⟩ acc).1 =
      dedupAcc acc (labelsOf s.remaining) ∧
    CleanAt (((hostResLoop n ⟨⟨s, keyValPat, m0⟩, labelHostResource,
      lab0⟩ acc).2).matcher.scanner) := by
  induction n with
  | zero => intro s m0 lab0 acc hc hn; omega
  | succ n ih =>
    intro s m0 lab0 acc hc hn
    rw [hostResLoop, rec_scan_clean s keyValPat m0 lab0 hc]
    rcases hfl : firstLabel keyValPat labelOfMsub s.remaining
      with _ | ⟨ms, l, lab, rest⟩
    · dsimp only
      rw [labelsOf_of_firstLabel_none s.remaining hfl]
      exact ⟨rfl, cleanAt_drained s hc⟩
    · dsimp only
      rw [labelsOf_of_firstLabel_some s.remaining ms l lab rest hfl]
      have hlen : rest.length < n := by
        have := firstLabel_shorter keyValPat labelOfMsub s.remaining ms l lab rest hfl
        omega
      have h2 := ih (advSt s l rest) ms lab
        (if lab ∈ acc then acc else acc ++ [lab])
        (cleanAt_advSt s l rest hc)
        (by simp only [advSt_remaining]; exact hlen)
      simp only [advSt_remaining] at h2
      refine ⟨?_, h2.2⟩
      rw [dedupAcc_cons]
      exact h2.1

/-- Cleaning up a session whose command succeeded reports no error. -/
theorem cleanup_clean (s : CmdScanner) (h : CleanAt s) :
    (s.cleanup none).2 = none := by
  obtain ⟨h1, h2, h3, h4, h5, h6, h7, h8⟩ := h
  have hM := errM_of_noerr_nohit s h1 h5
  by_cases hps : s.processStarted = true
  · have hcs : s.cleanupState = { s with killed := true, err := none } := by
      simp [CmdScanner.cleanupState, hps, hM, h6]
    have hM2 : ({ s with killed := true, err := none } : CmdScanner).errM =
        (none, { s with killed := true, err := none }) :=
      errM_of_noerr_nohit _ rfl h5
    simp [CmdScanner.cleanup, hcs, hM2]
  · have hcs : s.cleanupState = s := by
      simp [CmdScanner.cleanupState, hps]
    simp [CmdScanner.cleanup, hcs, hM]

/-- `hostResources` on a clean session: the set of labels of the
configuration lines, in first-appearance order. -/
theorem hostResources_clean (w : World) (id : List Char) :
    hostResources w id = .ok (dedupAcc [] (labelsOf (w.configOut id))) := by
  rw [hostResources]
  have h := hostResLoop_clean
    ((mkCmd ["qm".data, "config".data, id] (w.configOut id)).remaining.length + 1)
    (mkCmd ["qm".data, "config".data, id] (w.configOut id)) [] [] []
    (cleanAt_mkCmd _ _) (Nat.lt_succ_self _)
  rw [recognizeCommand]
  rw [cleanup_clean _ h.2, h.1]
  rfl

/-- On a clean session, the early-exit loop of `sharesHostResources` reports
whether some label of the remaining lines is in the set. -/
theorem sharesLoop_clean (n : Nat) :
    ∀ (s : CmdScanner) (m0 : List (List Char)) (lab0 : List Char)
      (reses : List (List Char)), CleanAt s → s.remaining.length < n →
    (sharesLoop n ⟨⟨s, keyValPat, m0⟩, labelHostResource, lab0⟩ reses).1 =
      (labelsOf s.remaining).any (fun lab => decide (lab ∈ reses)) ∧
    CleanAt (((sharesLoop n ⟨⟨s, keyValPat, m0⟩, labelHostResource,
      lab0⟩ reses).2).matcher.scanner) := by
  induction n with
  | zero => intro s m0 lab0 reses hc hn; omega
  | succ n ih =>
    intro s m0 lab0 reses hc hn
    rw [sharesLoop, rec_scan_clean s keyValPat m0 lab0 hc]
    rcases hfl : firstLabel keyValPat labelOfMsub s.remaining
      with _ | ⟨ms, l, lab, rest⟩
    · dsimp only
      rw [labelsOf_of_firstLabel_none s.remaining hfl]
      exact ⟨rfl, cleanAt_drained s hc⟩
    · dsimp only
      rw [labelsOf_of_firstLabel_some s.remaining ms l lab rest hfl]
      rw [List.any_cons]
      by_cases hmem : lab ∈ reses
      · rw [if_pos hmem]
        simp [hmem, cleanAt_advSt s l rest hc]
      · rw [if_neg hmem]
        have hlen : rest.length < n := by
          have := firstLabel_shorter keyValPat labelOfMsub s.remaining ms l lab
            rest hfl
          omega
        have h2 := ih (advSt s l rest) ms lab reses
          (cleanAt_advSt s l rest hc)
          (by simp only [advSt_remaining]; exact hlen)
        simp only [advSt_remaining] at h2
        refine ⟨?_, h2.2⟩
        rw [h2.1]
        simp [hmem]

/-- `sharesHostResources` on a clean session: true exactly when some label of
the configuration lines is in the set, with no error. -/
theorem sharesHostResources_clean (w : World) (id : List Char)
    (reses : List (List Char)) :
    sharesHostResources w id reses =
      ((labelsOf (w.configOut id)).any (fun lab => decide (lab ∈ reses)),
        none) := by
  rw [sharesHostResources]
  have h := sharesLoop_clean
    ((mkCmd ["qm".data, "config".data, id] (w.configOut id)).remaining.length + 1)
    (mkCmd ["qm".data, "config".data, id] (w.configOut id)) [] [] reses
    (cleanAt_mkCmd _ _) (Nat.lt_succ_self _)
  rw [recognizeCommand]
  rw [cleanup_clean _ h.2, h.1]
  rfl

/-- The pure content of the `mutuals` loop over already-listed rows. -/
def mutualsSpec (w : World) (id : List Char) (res : List (List Char)) :
    List (List Char) → List ListRec
  | [] => []
  | l :: rest =>
    match findSubmatch listPat l with
    | none => mutualsSpec w id res rest
    | some ms =>
      if mtext ms 1 = id then mutualsSpec w id res rest
      else if (labelsOf (w.configOut (mtext ms 1))).any
          (fun lab => decide (lab ∈ res)) then
        ⟨mtext ms 1, mtext ms 2, mtext ms 3⟩ :: mutualsSpec w id res rest
      else mutualsSpec w id res rest

theorem mutualsSpec_of_firstMatch_none (w : World) (id : List Char)
    (res : List (List Char)) (lines : List (List Char))
    (h : firstMatch listPat lines = none) : mutualsSpec w id res lines = [] := by
  induction lines with
  | nil => rfl
  | cons l rest ih =>
    rw [firstMatch] at h
    rw [mutualsSpec]
    rcases hf : findSubmatch listPat l with _ | ms
    · rw [hf] at h
      simp only [hf]
      exact ih h
    · rw [hf] at h
      simp at h

theorem mutualsSpec_of_firstMatch_some (w : World) (id : List Char)
    (res : List (List Char)) (lines : List (List Char))
    (ms : List (List Char)) (l : List Char) (rest : List (List Char))
    (h : firstMatch listPat lines = some (ms, l, rest)) :
    mutualsSpec w id res lines =
      (if mtext ms 1 = id then mutualsSpec w id res rest
       else if (labelsOf (w.configOut (mtext ms 1))).any
           (fun lab => decide (lab ∈ res)) then
         ⟨mtext ms 1, mtext ms 2, mtext ms 3⟩ :: mutualsSpec w id res rest
       else mutualsSpec w id res rest) := by
  induction lines with
  | nil => simp [firstMatch] at h
  | cons l0 rest0 ih =>
    rw [firstMatch] at h
    rw [mutualsSpec]
    rcases hf : findSubmatch listPat l0 with _ | ms0
    · rw [hf] at h
      simp only [hf]
      exact ih h
    · rw [hf] at h
      simp only [Option.some.injEq, Prod.mk.injEq] at h
      obtain ⟨hm, hl, hr⟩ := h
      subst hm hr
      simp only [hf]

/-- On a clean listing session, the `mutuals` loop collects exactly the
records `mutualsSpec` describes, appended to the accumulator. -/
theorem mutLoop_clean (w : World) (id : List Char) (res : List (List Char))
    (hres : ∀ oid, sharesHostResources w oid res =
      ((labelsOf (w.configOut oid)).any (fun lab => decide (lab ∈ res)), none))
    (n : Nat) :
    ∀ (s : CmdScanner) (m0 : List (List Char)) (acc : List ListRec),
    CleanAt s → s.remaining.length < n →
    mutLoop w id res n ⟨s, listPat, m0⟩ acc =
      .ok (acc ++ mutualsSpec w id res s.remaining) := by
  induction n with
  | zero => intro s m0 acc hc hn; omega
  | succ n ih =>
    intro s m0 acc hc hn
    rw [mutLoop, matcher_scan_clean s listPat m0 hc]
    rcases hfm : firstMatch listPat s.remaining with _ | ⟨ms, l, rest⟩
    · dsimp only
      obtain ⟨h1, h2, h3, h4, h5, h6, h7, h8⟩ := hc
      have hD : CleanAt (drained s) := cleanAt_drained s ⟨h1, h2, h3, h4, h5, h6, h7, h8⟩
      obtain ⟨d1, d2, d3, d4, d5, d6, d7, d8⟩ := hD
      rw [errM_of_noerr_nohit (drained s) d1 d5]
      rw [mutualsSpec_of_firstMatch_none w id res s.remaining hfm]
      simp
    · dsimp only
      rw [mutualsSpec_of_firstMatch_some w id res s.remaining ms l rest hfm]
      have hlen : rest.length < n := by
        have := firstMatch_shorter listPat s.remaining ms l rest hfm
        omega
      have hcadv : CleanAt (advSt s l rest) := cleanAt_advSt s l rest hc
      have hmt : (CmdMatcher.MatchText ⟨advSt s l rest, listPat, ms⟩ 1)
          = mtext ms 1 := rfl
      by_cases hid : mtext ms 1 = id
      · rw [if_pos (by rw [hmt]; exact hid), if_pos hid]
        rw [ih (advSt s l rest) ms acc hcadv
          (by simp only [advSt_remaining]; exact hlen)]
        rw [advSt_remaining]
      · rw [if_neg (by rw [hmt]; exact hid), if_neg hid]
        rw [hmt, hres (mtext ms 1)]
        dsimp only
        by_cases hsh : (labelsOf (w.configOut (mtext ms 1))).any
            (fun lab => decide (lab ∈ res)) = true
        · rw [if_pos hsh, if_pos hsh]
          rw [ih (advSt s l rest) ms _ hcadv
            (by simp only [advSt_remaining]; exact hlen)]
          rw [advSt_remaining]
          simp [CmdMatcher.MatchText]
        · rw [if_neg hsh, if_neg hsh]
          rw [ih (advSt s l rest) ms acc hcadv
            (by simp only [advSt_remaining]; exact hlen)]
          rw [advSt_remaining]

/-- The listing rows after the header row (the first matching line). -/
def afterHeader (lines : List (List Char)) : List (List Char) :=
  match firstMatch listPat lines with
  | none => []
  | some (_, _, rest) => rest

/-- `mutuals` on a clean world: the records of `mutualsSpec` over the
post-header rows, against the target's label set. -/
theorem mutuals_clean (w : World) (id : List Char) :
    mutuals w id =
      .ok (mutualsSpec w id (dedupAcc [] (labelsOf (w.configOut id)))
        (afterHeader w.listOut)) := by
  rw [mutuals, hostResources_clean w id]
  dsimp only
  rw [matchCommand, CmdMatcher.Scan,
    matcher_scanFuel_clean _ _ _ _ (cleanAt_mkCmd _ _) (Nat.lt_succ_self _)]
  have hres := fun oid => sharesHostResources_clean w oid
    (dedupAcc [] (labelsOf (w.configOut id)))
  rcases hfm : firstMatch listPat
      (mkCmd ["qm".data, "list".data] w.listOut).remaining with _ | ⟨ms, l, rest⟩
  · dsimp only
    rw [mutLoop_clean w id _ hres _ (drained (mkCmd ["qm".data, "list".data] w.listOut))
      [] [] (cleanAt_drained _ (cleanAt_mkCmd _ _)) (Nat.lt_succ_self _)]
    have hAH : afterHeader w.listOut = [] := by
      rw [afterHeader]
      rw [show firstMatch listPat w.listOut = none from hfm]
    rw [hAH]
    rw [show (drained (mkCmd ["qm".data, "list".data] w.listOut)).remaining
      = [] from rfl]
    rfl
  · dsimp only
    rw [mutLoop_clean w id _ hres _
      (advSt (mkCmd ["qm".data, "list".data] w.listOut) l rest)
      ms [] (cleanAt_advSt _ l rest (cleanAt_mkCmd _ _))
      (by simp only [advSt_remaining]
          have := firstMatch_shorter listPat
            (mkCmd ["qm".data, "list".data] w.listOut).remaining ms l rest hfm
          omega)]
    have hAH : afterHeader w.listOut = rest := by
      rw [afterHeader]
      rw [show firstMatch listPat w.listOut = some (ms, l, rest) from hfm]
    rw [advSt_remaining, hAH]
    simp

theorem mutualsSpec_id_ne (w : World) (id : List Char) (res : List (List Char))
    (lines : List (List Char)) :
    ∀ r ∈ mutualsSpec w id res lines, r.id ≠ id := by
  induction lines with
  | nil => intro r hr; simp [mutualsSpec] at hr
  | cons l rest ih =>
    intro r hr
    rw [mutualsSpec] at hr
    rcases hf : findSubmatch listPat l with _ | ms
    · rw [hf] at hr
      exact ih r hr
    · rw [hf] at hr
      dsimp only at hr
      by_cases hid : mtext ms 1 = id
      · rw [if_pos hid] at hr
        exact ih r hr
      · rw [if_neg hid] at hr
        by_cases hsh : (labelsOf (w.configOut (mtext ms 1))).any
            (fun lab => decide (lab ∈ res)) = true
        · rw [if_pos hsh] at hr
          rcases List.mem_cons.mp hr with h1 | h2
          · rw [h1]
            exact hid
          · exact ih r h2
        · rw [if_neg hsh] at hr
          exact ih r hr

/-- C3: whatever the listing and the configurations, `mutuals` never returns
a record carrying the target's own id. -/
theorem C3_mutuals_irreflexive (w : World) (a : List Char)
    (la : List ListRec) (h : mutuals w a = .ok la) : ∀ r ∈ la, r.id ≠ a := by
  rw [mutuals_clean w a] at h
  have hla : la = mutualsSpec w a (dedupAcc [] (labelsOf (w.configOut a)))
      (afterHeader w.listOut) := by
    injection h with h2
    exact h2.symm
  rw [hla]
  exact mutualsSpec_id_ne w a _ _

/-- The witness world: VMs 101 and 102 share a PCI device, 103 shares
nothing, and 101 additionally claims a USB passthrough. -/
def wW : World :=
  { listOut :=
      ["  VMID NAME STATUS MEM".data,
       "  101 winvm running 3072 ".data,
       "  102 linvm stopped 2048 ".data,
       "  103 other running 512 ".data],
    configOut := fun id =>
      if id = "101".data then
        ["hostpci0: 0000:01:00.0,pcie=1".data,
         "ide2: none,media=cdrom".data,
         "usb0: host=1-1.2".data]
      else if id = "102".data then
        ["hostpci0: 0000:01:00.0".data]
      else if id = "103".data then
        ["net0: virtio=aa".data]
      else [] }

theorem C3_mutuals_irreflexive_witness :
    mutuals wW ("101".data) =
      .ok [⟨"102".data, "linvm".data, "stopped".data⟩] ∧
    ∀ r ∈ [(⟨"102".data, "linvm".data, "stopped".data⟩ : ListRec)],
      r.id ≠ "101".data :=
  ⟨rfl,
    C3_mutuals_irreflexive wW ("101".data)
      [⟨"102".data, "linvm".data, "stopped".data⟩] rfl⟩

/-- The ids parsed from the given listing rows. -/
def listedIds : List (List Char) → List (List Char)
  | [] => []
  | l :: rest =>
    match findSubmatch listPat l with
    | some ms => mtext ms 1 :: listedIds rest
    | none => listedIds rest

theorem mutualsSpec_mem (w : World) (id : List Char) (res : List (List Char))
    (lines : List (List Char)) (b : List Char) (hid : b ≠ id)
    (hb : b ∈ listedIds lines)
    (hsh : (labelsOf (w.configOut b)).any (fun lab => decide (lab ∈ res)) = true) :
    ∃ r ∈ mutualsSpec w id res lines, r.id = b := by
  induction lines with
  | nil => simp [listedIds] at hb
  | cons l rest ih =>
    rw [listedIds] at hb
    rw [mutualsSpec]
    rcases hf : findSubmatch listPat l with _ | ms
    · rw [hf] at hb
      exact ih hb
    · rw [hf] at hb
      dsimp only at hb ⊢
      rcases List.mem_cons.mp hb with h1 | h2
      · subst h1
        rw [if_neg hid, if_pos hsh]
        exact ⟨_, List.mem_cons_self _ _, rfl⟩
      · obtain ⟨r, hr, hrid⟩ := ih h2
        by_cases h3 : mtext ms 1 = id
        · rw [if_pos h3]
          exact ⟨r, hr, hrid⟩
        · rw [if_neg h3]
          by_cases h4 : (labelsOf (w.configOut (mtext ms 1))).any
              (fun lab => decide (lab ∈ res)) = true
          · rw [if_pos h4]
            exact ⟨r, List.mem_cons_of_mem _ hr, hrid⟩
          · rw [if_neg h4]
            exact ⟨r, hr, hrid⟩

/-- C2: two distinct listed VMs whose configurations share a label are each
in the other's mutuals, when all commands succeed. -/
theorem C2_mutuals_symmetric (w : World) (a b lab : List Char) (hab : a ≠ b)
    (hla : lab ∈ labelsOf (w.configOut a))
    (hlb : lab ∈ labelsOf (w.configOut b))
    (hbl : b ∈ listedIds (afterHeader w.listOut))
    (hal : a ∈ listedIds (afterHeader w.listOut)) :
    (∃ la, mutuals w a = .ok la ∧ ∃ r ∈ la, r.id = b) ∧
    (∃ lb, mutuals w b = .ok lb ∧ ∃ r ∈ lb, r.id = a) := by
  have hshA : (labelsOf (w.configOut b)).any
      (fun x => decide (x ∈ dedupAcc [] (labelsOf (w.configOut a)))) = true := by
    rw [List.any_eq_true]
    refine ⟨lab, hlb, ?_⟩
    rw [decide_eq_true_eq, mem_dedupAcc]
    exact Or.inr hla
  have hshB : (labelsOf (w.configOut a)).any
      (fun x => decide (x ∈ dedupAcc [] (labelsOf (w.configOut b)))) = true := by
    rw [List.any_eq_true]
    refine ⟨lab, hla, ?_⟩
    rw [decide_eq_true_eq, mem_dedupAcc]
    exact Or.inr hlb
  constructor
  · exact ⟨_, mutuals_clean w a,
      mutualsSpec_mem w a _ _ b (fun hx => hab hx.symm) hbl hshA⟩
  · exact ⟨_, mutuals_clean w b,
      mutualsSpec_mem w b _ _ a hab hal hshB⟩

theorem C2_mutuals_symmetric_witness :
    (∃ la, mutuals wW ("101".data) = .ok la ∧ ∃ r ∈ la, r.id = "102".data) ∧
    (∃ lb, mutuals wW ("102".data) = .ok lb ∧ ∃ r ∈ lb, r.id = "101".data) :=
  C2_mutuals_symmetric wW ("101".data) ("102".data)
    ("hostpci:0000:01:00.0".data) (by decide) (by decide) (by decide)
    (by decide) (by decide)

theorem mutualsSpec_empty_res (w : World) (a : List Char)
    (lines : List (List Char)) : mutualsSpec w a [] lines = [] := by
  induction lines with
  | nil => rfl
  | cons l rest ih =>
    rw [mutualsSpec]
    rcases hf : findSubmatch listPat l with _ | ms
    · exact ih
    · dsimp only
      by_cases hid : mtext ms 1 = a
      · rw [if_pos hid]
        exact ih
      · rw [if_neg hid]
        have : (labelsOf (w.configOut (mtext ms 1))).any
            (fun lab => decide (lab ∈ ([] : List (List Char)))) = false := by
          simp
        rw [this]
        simp only [Bool.false_eq_true, if_false]
        exact ih

/-- C10: a target whose configuration yields no labels has no mutuals in any
listing, sharing over the empty set is always false, and its `stopMutuals`
issues no request and returns no error. -/
theorem C10_empty_identity_set (w : World) (a : List Char)
    (h : labelsOf (w.configOut a) = []) :
    mutuals w a = .ok [] ∧
    (∀ oid, (sharesHostResources w oid []).1 = false) ∧
    (∀ dry outcome (sched : List (List Char) → List (List Char)),
      sched [] = [] → stopMutuals w dry outcome sched a = ([], [], none)) := by
  have hd : dedupAcc [] (labelsOf (w.configOut a)) = [] := by rw [h]; rfl
  have hm : mutuals w a = .ok [] := by
    rw [mutuals_clean w a, hd, mutualsSpec_empty_res]
  refine ⟨hm, ?_, ?_⟩
  · intro oid
    rw [sharesHostResources_clean]
    simp
  · intro dry outcome sched hsched
    rw [stopMutuals, hm]
    dsimp only [stopMutualsOnRecs, spawnLoop]
    rw [hsched]
    rfl

theorem C10_empty_identity_set_witness :
    labelsOf (wW.configOut ("103".data)) = [] ∧
    mutuals wW ("103".data) = .ok [] ∧
    stopMutuals wW false (fun _ => none) (fun l => l) ("103".data)
      = ([], [], none) :=
  ⟨by decide, (C10_empty_identity_set wW ("103".data) (by decide)).1,
    (C10_empty_identity_set wW ("103".data) (by decide)).2.2
      false (fun _ => none) (fun l => l) rfl⟩

/-! ### The shutdown fan-out -/

/-- The ids of the records in running state, in record order. -/
def runningIds (recs : List ListRec) : List (List Char) :=
  recs.filterMap (fun r =>
    if r.status = "running".data then some r.id else none)

/-- The records whose status is neither running nor stopped. -/
def unknownRecs (recs : List ListRec) : List ListRec :=
  recs.filter (fun r =>
    decide (r.status ≠ "running".data) && decide (r.status ≠ "stopped".data))

theorem spawnLoop_eq (recs : List ListRec) :
    spawnLoop recs = (runningIds recs, unknownRecs recs) := by
  induction recs with
  | nil => rfl
  | cons r rest ih =>
    rw [spawnLoop, ih]
    by_cases h1 : r.status = "running".data
    · simp [runningIds, unknownRecs, h1]
    · by_cases h2 : r.status = "stopped".data
      · simp [runningIds, unknownRecs, h1, h2]
      · simp [runningIds, unknownRecs, h1, h2]

theorem stopTasksExec_reqs (outcome : List (List Char) → Option GoError)
    (order : List (List Char)) :
    (stopTasksExec false outcome order).1 = order.map shutdownArgs := by
  induction order with
  | nil => rfl
  | cons t rest ih =>
    rw [stopTasksExec] at ih ⊢
    simp only [List.map_cons, List.foldr_cons, maybeRun,
      if_neg Bool.false_ne_true, List.singleton_append] at ih ⊢
    rw [ih]

theorem stopTasksExec_dry (outcome : List (List Char) → Option GoError)
    (order : List (List Char)) :
    stopTasksExec true outcome order = ([], none) := by
  induction order with
  | nil => rfl
  | cons t rest ih =>
    rw [stopTasksExec] at ih ⊢
    simp [maybeRun] at ih ⊢
    exact ih

theorem stopTasksExec_err (outcome : List (List Char) → Option GoError)
    (order : List (List Char)) :
    (stopTasksExec false outcome order).2 =
      order.findSome? (fun tid => outcome (shutdownArgs tid)) := by
  induction order with
  | nil => rfl
  | cons t rest ih =>
    rw [stopTasksExec] at ih ⊢
    simp only [List.map_cons, List.findSome?_cons, maybeRun,
      if_neg Bool.false_ne_true] at ih ⊢
    rcases outcome (shutdownArgs t) with _ | e
    · exact ih
    · rfl

/-- C4: the fan-out issues exactly one shutdown request per running record,
takes no action on stopped records, only diagnoses records in other states,
and under dry run issues nothing and fails nothing. -/
theorem C4_stop_actions (recs : List ListRec)
    (outcome : List (List Char) → Option GoError)
    (sched : List (List Char) → List (List Char))
    (hs : ∀ ts, (sched ts).Perm ts) :
    ((stopMutualsOnRecs recs false outcome sched).1).Perm
      ((runningIds recs).map shutdownArgs) ∧
    (stopMutualsOnRecs recs false outcome sched).2.1 = unknownRecs recs ∧
    stopMutualsOnRecs recs true outcome sched = ([], unknownRecs recs, none) := by
  refine ⟨?_, ?_, ?_⟩
  · show (stopTasksExec false outcome (sched (spawnLoop recs).1)).1.Perm _
    rw [stopTasksExec_reqs, spawnLoop_eq]
    exact (hs (runningIds recs)).map shutdownArgs
  · show (spawnLoop recs).2 = _
    rw [spawnLoop_eq]
  · show ((stopTasksExec true outcome (sched (spawnLoop recs).1)).1,
      (spawnLoop recs).2,
      (stopTasksExec true outcome (sched (spawnLoop recs).1)).2) = _
    rw [spawnLoop_eq, stopTasksExec_dry]

def recsW : List ListRec :=
  [⟨"102".data, "linvm".data, "running".data⟩,
   ⟨"103".data, "other".data, "stopped".data⟩,
   ⟨"104".data, "odd".data, "paused".data⟩]

theorem C4_stop_actions_witness :
    ((stopMutualsOnRecs recsW false (fun _ => none) (fun l => l)).1).Perm
      ((runningIds recsW).map shutdownArgs) ∧
    (stopMutualsOnRecs recsW false (fun _ => none) (fun l => l)).2.1
      = unknownRecs recsW ∧
    stopMutualsOnRecs recsW true (fun _ => none) (fun l => l)
      = ([], unknownRecs recsW, none) :=
  C4_stop_actions recsW (fun _ => none) (fun l => l)
    (fun ts => List.Perm.refl ts)

theorem findSome?_first {α β : Type} (f : α → Option β) :
    ∀ (l : List α) (e : β), l.findSome? f = some e →
    ∃ pre x post, l = pre ++ x :: post ∧ f x = some e ∧
      ∀ y ∈ pre, f y = none := by
  intro l
  induction l with
  | nil => intro e h; simp [List.findSome?] at h
  | cons a rest ih =>
    intro e h
    rw [List.findSome?_cons] at h
    rcases hf : f a with _ | b
    · rw [hf] at h
      obtain ⟨pre, x, post, hsplit, hx, hpre⟩ := ih e h
      refine ⟨a :: pre, x, post, by simp [hsplit], hx, ?_⟩
      intro y hy
      rcases List.mem_cons.mp hy with h1 | h2
      · rw [h1]; exact hf
      · exact hpre y h2
    · rw [hf] at h
      refine ⟨[], a, rest, rfl, ?_, by intro y hy; simp at hy⟩
      rw [hf]
      injection h with h2
      rw [h2]

theorem findSome?_none_iff {α β : Type} (f : α → Option β) (l : List α) :
    l.findSome? f = none ↔ ∀ x ∈ l, f x = none := by
  induction l with
  | nil => simp [List.findSome?]
  | cons a rest ih =>
    rw [List.findSome?_cons]
    rcases hf : f a with _ | b
    · simp only [List.mem_cons]
      rw [ih]
      constructor
      · intro h x hx
        rcases hx with h1 | h2
        · rw [h1]; exact hf
        · exact h x h2
      · intro h x hx
        exact h x (Or.inr hx)
    · constructor
      · intro h; simp at h
      · intro h
        have := h a (List.mem_cons_self a rest)
        rw [this] at hf
        simp at hf

theorem mem_runningIds (recs : List ListRec) (r : ListRec) (hr : r ∈ recs)
    (hst : r.status = "running".data) : r.id ∈ runningIds recs := by
  rw [runningIds, List.mem_filterMap]
  exact ⟨r, hr, by rw [if_pos hst]⟩

/-- C5: whatever the completion order of the concurrent shutdown tasks, every
running mutual's request is issued regardless of the other tasks' outcomes,
only the first failure in completion order is returned (none when all tasks
succeed), and the set of issued requests does not depend on the outcomes. -/
theorem C5_first_error_no_cancellation (recs : List ListRec)
    (outcome : List (List Char) → Option GoError)
    (sched : List (List Char) → List (List Char))
    (hs : ∀ ts, (sched ts).Perm ts) :
    (∀ r ∈ recs, r.status = "running".data →
      shutdownArgs r.id ∈ (stopMutualsOnRecs recs false outcome sched).1) ∧
    ((stopMutualsOnRecs recs false outcome sched).2.2 = none ↔
      ∀ tid ∈ sched (runningIds recs), outcome (shutdownArgs tid) = none) ∧
    (∀ e, (stopMutualsOnRecs recs false outcome sched).2.2 = some e →
      ∃ pre tid post, sched (runningIds recs) = pre ++ tid :: post ∧
        outcome (shutdownArgs tid) = some e ∧
        ∀ tid2 ∈ pre, outcome (shutdownArgs tid2) = none) ∧
    (∀ outcome2, (stopMutualsOnRecs recs false outcome2 sched).1 =
      (stopMutualsOnRecs recs false outcome sched).1) := by
  have hreq : (stopMutualsOnRecs recs false outcome sched).1 =
      (sched (runningIds recs)).map shutdownArgs := by
    show (stopTasksExec false outcome (sched (spawnLoop recs).1)).1 = _
    rw [stopTasksExec_reqs, spawnLoop_eq]
  have herr : (stopMutualsOnRecs recs false outcome sched).2.2 =
      (sched (runningIds recs)).findSome?
        (fun tid => outcome (shutdownArgs tid)) := by
    show (stopTasksExec false outcome (sched (spawnLoop recs).1)).2 = _
    rw [stopTasksExec_err, spawnLoop_eq]
  refine ⟨?_, ?_, ?_, ?_⟩
  · intro r hr hst
    rw [hreq]
    exact List.mem_map_of_mem shutdownArgs
      (((hs (runningIds recs)).mem_iff).mpr (mem_runningIds recs r hr hst))
  · rw [herr]
    exact findSome?_none_iff _ _
  · intro e he
    rw [herr] at he
    exact findSome?_first _ _ e he
  · intro outcome2
    have hreq2 : (stopMutualsOnRecs recs false outcome2 sched).1 =
        (sched (runningIds recs)).map shutdownArgs := by
      show (stopTasksExec false outcome2 (sched (spawnLoop recs).1)).1 = _
      rw [stopTasksExec_reqs, spawnLoop_eq]
    rw [hreq, hreq2]

def outcomeW : List (List Char) → Option GoError := fun args =>
  if args = shutdownArgs ("102".data) then some (GoError.exitStatus 1) else none

theorem C5_first_error_no_cancellation_witness :
    (∀ r ∈ recsW, r.status = "running".data →
      shutdownArgs r.id ∈ (stopMutualsOnRecs recsW false outcomeW (fun l => l)).1) ∧
    (∀ e, (stopMutualsOnRecs recsW false outcomeW (fun l => l)).2.2 = some e →
      ∃ pre tid post, (fun (l : List (List Char)) => l) (runningIds recsW)
          = pre ++ tid :: post ∧
        outcomeW (shutdownArgs tid) = some e ∧
        ∀ tid2 ∈ pre, outcomeW (shutdownArgs tid2) = none) :=
  ⟨(C5_first_error_no_cancellation recsW outcomeW (fun l => l)
      (fun ts => List.Perm.refl ts)).1,
   (C5_first_error_no_cancellation recsW outcomeW (fun l => l)
      (fun ts => List.Perm.refl ts)).2.2.1⟩

/-- C8: the hook entry point demands a vmid and a phase, rejects unknown
phases naming them, treats the three reserved phases as no-ops, and runs the
conflict pipeline only on pre-start. -/
theorem C8_runHook_dispatch (w : World) (dry : Bool)
    (outcome : List (List Char) → Option GoError)
    (sched : List (List Char) → List (List Char)) (progName : List Char) :
    (∀ args : List (List Char), args.length < 2 →
      runHook w dry outcome sched progName args
        = (some (GoError.usage progName), [], [])) ∧
    (∀ vmid phase rest, phase ≠ "pre-start".data → phase ≠ "post-start".data →
      phase ≠ "pre-stop".data → phase ≠ "post-stop".data →
      runHook w dry outcome sched progName (vmid :: phase :: rest)
        = (some (GoError.unknownPhase phase), [], [])) ∧
    (∀ vmid rest, runHook w dry outcome sched progName
        (vmid :: "post-start".data :: rest) = (none, [], [])) ∧
    (∀ vmid rest, runHook w dry outcome sched progName
        (vmid :: "pre-stop".data :: rest) = (none, [], [])) ∧
    (∀ vmid rest, runHook w dry outcome sched progName
        (vmid :: "post-stop".data :: rest) = (none, [], [])) ∧
    (∀ vmid rest, runHook w dry outcome sched progName
        (vmid :: "pre-start".data :: rest) =
      ((stopMutuals w dry outcome sched vmid).2.2,
        (stopMutuals w dry outcome sched vmid).1,
        (stopMutuals w dry outcome sched vmid).2.1)) := by
  refine ⟨?_, ?_, ?_, ?_, ?_, ?_⟩
  · intro args h
    rcases args with _ | ⟨a0, _ | ⟨a1, t⟩⟩
    · rfl
    · rfl
    · simp only [List.length_cons] at h
      omega
  · intro vmid phase rest h1 h2 h3 h4
    rw [runHook, if_neg (by simp)]
    dsimp only
    rw [if_neg h1, if_neg h2, if_neg h3, if_neg h4]
  · intro vmid rest
    rw [runHook, if_neg (by simp)]
    dsimp only
    rw [if_neg (by decide), if_pos rfl]
  · intro vmid rest
    rw [runHook, if_neg (by simp)]
    dsimp only
    rw [if_neg (by decide), if_neg (by decide), if_pos rfl]
  · intro vmid rest
    rw [runHook, if_neg (by simp)]
    dsimp only
    rw [if_neg (by decide), if_neg (by decide), if_neg (by decide), if_pos rfl]
  · intro vmid rest
    rw [runHook, if_neg (by simp)]
    dsimp only
    rw [if_pos rfl]

theorem C8_runHook_dispatch_witness :
    runHook wW false (fun _ => none) (fun l => l) ("qmexmut.hook".data)
      [("101".data)] = (some (GoError.usage ("qmexmut.hook".data)), [], []) ∧
    runHook wW false (fun _ => none) (fun l => l) ("qmexmut.hook".data)
      [("101".data), ("mid-start".data)]
      = (some (GoError.unknownPhase ("mid-start".data)), [], []) ∧
    runHook wW false (fun _ => none) (fun l => l) ("qmexmut.hook".data)
      [("101".data), ("post-start".data)] = (none, [], []) :=
  ⟨(C8_runHook_dispatch wW false (fun _ => none) (fun l => l)
      ("qmexmut.hook".data)).1 [("101".data)] (by decide),
   (C8_runHook_dispatch wW false (fun _ => none) (fun l => l)
      ("qmexmut.hook".data)).2.1 ("101".data) ("mid-start".data) []
      (by decide) (by decide) (by decide) (by decide),
   (C8_runHook_dispatch wW false (fun _ => none) (fun l => l)
      ("qmexmut.hook".data)).2.2.1 ("101".data) []⟩

/-! ### Matcher access safety -/

theorem scanFuel_true_inv (n : Nat) :
    ∀ (cmm cmm2 : CmdMatcher), CmdMatcher.scanFuel n cmm = (true, cmm2) →
    cmm2.pat = cmm.pat ∧
    findSubmatch cmm2.pat cmm2.scanner.cur = some cmm2.msub := by
  induction n with
  | zero =>
    intro cmm cmm2 h
    rw [CmdMatcher.scanFuel] at h
    simp at h
  | succ n ih =>
    intro cmm cmm2 h
    rw [CmdMatcher.scanFuel] at h
    rcases hs : cmm.scanner.scan with ⟨ok, s⟩
    rw [hs] at h
    rcases ok with _ | _
    · simp at h
    · dsimp only at h
      rcases hf : findSubmatch cmm.pat s.cur with _ | ms
      · rw [hf] at h
        have := ih { cmm with scanner := s } cmm2 h
        exact this
      · rw [hf] at h
        simp only [Prod.mk.injEq, true_and] at h
        subst h
        exact ⟨rfl, hf⟩

theorem fsGo_some_shape (atoms : List Atom) (ng : Nat) :
    ∀ (cs : List Char) (prev : Option Char) (ms : List (List Char)),
    fsGo atoms ng prev cs = some ms →
    ms ≠ [] ∧ ∃ pre post, cs = pre ++ mtext ms 0 ++ post := by
  intro cs
  induction cs with
  | nil =>
    intro prev ms h
    rw [fsGo] at h
    rcases ht : tryAtoms atoms prev [] with _ | ⟨caps, rest⟩
    · rw [ht] at h
      simp at h
    · rw [ht] at h
      simp only [Option.some.injEq] at h
      subst h
      refine ⟨by simp, [], [], ?_⟩
      simp [mtext]
  | cons c cs2 ih =>
    intro prev ms h
    rw [fsGo] at h
    rcases ht : tryAtoms atoms prev (c :: cs2) with _ | ⟨caps, rest⟩
    · rw [ht] at h
      dsimp only at h
      obtain ⟨hne, pre, post, hsplit⟩ := ih (some c) ms h
      exact ⟨hne, c :: pre, post, by simp [hsplit]⟩
    · rw [ht] at h
      simp only [Option.some.injEq] at h
      subst h
      refine ⟨by simp, [], (c :: cs2).drop ((c :: cs2).length - rest.length), ?_⟩
      simp only [mtext, List.get?]
      rw [List.nil_append]
      exact (List.take_append_drop _ _).symm

/-- C9, amended: after a successful `Scan`, the held submatches are the
(nonempty) `FindSubmatch` vector of the current line, whose entry 0 is the
text the pattern matched — a part of the raw line, not necessarily all of
it; entries are exposed positionally, and any index at or beyond the number
of captured slots (or any index at all, when no match is held) yields the
empty text from `MatchText` and nil from `Match` rather than failing. -/
theorem C9_match_access (cmm cmm2 : CmdMatcher)
    (h : cmm.Scan = (true, cmm2)) :
    cmm2.msub ≠ [] ∧
    findSubmatch cmm2.pat cmm2.scanner.cur = some cmm2.msub ∧
    (∃ pre post, cmm2.scanner.cur = pre ++ cmm2.MatchText 0 ++ post) ∧
    (∀ i (hi : i < cmm2.msub.length),
      cmm2.Match i = some (cmm2.msub.get ⟨i, hi⟩) ∧
      cmm2.MatchText i = cmm2.msub.get ⟨i, hi⟩) ∧
    (∀ i, cmm2.msub.length ≤ i → cmm2.MatchText i = [] ∧ cmm2.Match i = none) ∧
    (∀ m : CmdMatcher, m.msub = [] → ∀ i, m.MatchText i = [] ∧ m.Match i = none) := by
  rw [CmdMatcher.Scan] at h
  have hinv := scanFuel_true_inv _ _ _ h
  have hshape := fsGo_some_shape cmm2.pat.atoms cmm2.pat.ngroups
    cmm2.scanner.cur none cmm2.msub hinv.2
  refine ⟨hshape.1, hinv.2, ?_, ?_, ?_, ?_⟩
  · exact hshape.2
  · intro i hi
    constructor
    · rw [CmdMatcher.Match, List.get?_eq_get hi]
    · rw [CmdMatcher.MatchText, mtext, List.get?_eq_get hi]
      rfl
  · intro i hi
    have hnone : cmm2.msub.get? i = none := List.get?_eq_none.mpr hi
    exact ⟨by rw [CmdMatcher.MatchText, mtext, hnone]; rfl,
      by rw [CmdMatcher.Match, hnone]⟩
  · intro m hm i
    have hnone : m.msub.get? i = none := by rw [hm]; rfl
    exact ⟨by rw [CmdMatcher.MatchText, mtext, hnone]; rfl,
      by rw [CmdMatcher.Match, hnone]⟩

def c9Matcher : CmdMatcher :=
  matchCommand (mkCmd ["qm".data, "config".data, "101".data]
    ["hostpci0: 0000:01:00.0".data]) keyValPat

theorem C9_match_access_witness :
    (c9Matcher.Scan).1 = true ∧
    ((c9Matcher.Scan).2.msub ≠ [] ∧
      ∃ pre post, (c9Matcher.Scan).2.scanner.cur
        = pre ++ (c9Matcher.Scan).2.MatchText 0 ++ post) :=
  ⟨rfl,
    (C9_match_access c9Matcher ((c9Matcher.Scan).2) rfl).1,
    (C9_match_access c9Matcher ((c9Matcher.Scan).2) rfl).2.2.1⟩

def c9ListMatcher : CmdMatcher :=
  matchCommand (mkCmd ["qm".data, "list".data] [" 101 vm running 7".data])
    listPat

/-- C9 is false as stated: on the listing row below the scan succeeds, yet
`MatchText 0` is the matched portion of the line (without the leading blank
and the trailing field), not the raw matched line. -/
theorem C9_counterexample :
    (c9ListMatcher.Scan).1 = true ∧
    (c9ListMatcher.Scan).2.scanner.cur = " 101 vm running 7".data ∧
    (c9ListMatcher.Scan).2.MatchText 0 = "101 vm running ".data ∧
    (c9ListMatcher.Scan).2.MatchText 0 ≠ " 101 vm running 7".data := by
  refine ⟨rfl, rfl, rfl, by decide⟩

end Qmexmut
